import Mathlib

/-!
# Verification of the CodeCounter line-counting utility

Shallow embedding of the three Python variants (`code_counter.py`,
`code_counter_benchmark.py`, `code_counter_turbo.py`): line counting,
file collection, batch partitioning and result merging, together with
proofs of the specification's claims about them.

File contents are modelled as `List Char` (text mode, after decoding)
or `List Nat` (binary mode, byte values).  `Option` models fallible
reads: `none` is any I/O or decode failure.
-/

namespace CodeCounter

/-! ## Whitespace

`bytes.strip()` (no argument) strips the six ASCII whitespace bytes.
`str.strip()` strips every Unicode character `c` with `c.isspace()`;
the set below is CPython's: ASCII whitespace, the four information
separators 0x1c-0x1f, NEL, and the Unicode space characters. -/

/-- The bytes stripped by Python `bytes.strip()`: `b' \t\n\r\x0b\x0c'`. -/
def isWSByte (b : Nat) : Bool :=
  b == 32 || b == 9 || b == 10 || b == 13 || b == 11 || b == 12

/-- The characters stripped by Python `str.strip()` (CPython's Unicode
whitespace set, given by code point). -/
def isWSChar (c : Char) : Bool :=
  ([9, 10, 11, 12, 13, 28, 29, 30, 31, 32, 0x85, 0xa0, 0x1680,
    0x2000, 0x2001, 0x2002, 0x2003, 0x2004, 0x2005, 0x2006, 0x2007,
    0x2008, 0x2009, 0x200a, 0x2028, 0x2029, 0x202f, 0x205f, 0x3000] :
    List Nat).contains c.toNat

/-- `line.strip()` is truthy iff some element of the line is not
whitespace: the line survives the blank-line filter. -/
def nonBlank (ws : α → Bool) (l : List α) : Bool :=
  l.any (fun a => !(ws a))

/-! ## Splitting on a separator

`content.split(sep)` for a one-element separator: the list of (possibly
empty) segments between occurrences of the separator.  The result is
always nonempty and no segment contains the separator. -/

/-- Python `content.split(sep)` for a single-element separator,
specialised to a Boolean test for the separator element. -/
def splitSep (p : α → Bool) : List α → List (List α)
  | [] => [[]]
  | a :: l =>
      let r := splitSep p l
      if p a then [] :: r else (a :: r.headD []) :: r.tail

theorem splitSep_ne_nil (p : α → Bool) (l : List α) : splitSep p l ≠ [] := by
  cases l with
  | nil => simp [splitSep]
  | cons a l =>
      simp only [splitSep]
      split <;> simp

theorem splitSep_cons_exists (p : α → Bool) (l : List α) :
    ∃ s r, splitSep p l = s :: r := by
  cases h : splitSep p l with
  | nil => exact absurd h (splitSep_ne_nil p l)
  | cons s r => exact ⟨s, r, rfl⟩

/-- Segments produced by `splitSep` never contain the separator. -/
theorem not_p_of_mem_splitSep (p : α → Bool) (l : List α) :
    ∀ s ∈ splitSep p l, ∀ a ∈ s, p a = false := by
  induction l with
  | nil =>
      intro s hs a ha
      simp [splitSep] at hs
      simp [hs] at ha
  | cons b l ih =>
      obtain ⟨s₀, r, hr⟩ := splitSep_cons_exists p l
      intro s hs a ha
      simp only [splitSep, hr] at hs
      by_cases hb : p b
      · simp [hb] at hs
        rcases hs with h | h
        · simp [h] at ha
        · exact ih s (by rw [hr]; exact List.mem_cons.mpr h) a ha
      · simp [hb] at hs
        rcases hs with h | h
        · subst h
          rcases List.mem_cons.mp ha with ha | ha
          · subst ha; simpa using hb
          · exact ih s₀ (hr ▸ List.mem_cons_self s₀ r) a ha
        · exact ih s (hr ▸ List.mem_cons_of_mem s₀ h) a ha

/-! ### List helper lemmas -/

theorem getLastD_default_irrel (l : List α) (h : l ≠ []) (d e : α) :
    l.getLastD d = l.getLastD e := by
  rw [List.getLastD_eq_getLast?, List.getLastD_eq_getLast?,
      List.getLast?_eq_getLast_of_ne_nil h]
  simp

theorem dropLast_append_getLastD (l : List α) (h : l ≠ []) (d : α) :
    l.dropLast ++ [l.getLastD d] = l := by
  rw [List.getLastD_eq_getLast?, List.getLast?_eq_getLast_of_ne_nil h]
  exact List.dropLast_append_getLast h

theorem getLastD_cons_of_ne_nil (a : α) (l : List α) (h : l ≠ []) (d : α) :
    (a :: l).getLastD d = l.getLastD d := by
  rw [List.getLastD_eq_getLast?, List.getLastD_eq_getLast?,
      List.getLast?_eq_getLast_of_ne_nil h,
      List.getLast?_eq_getLast_of_ne_nil (List.cons_ne_nil a l)]
  simp [List.getLast_cons h]

/-- A list without any separator splits into the single segment that is
the list itself. -/
theorem splitSep_eq_single (p : α → Bool) (l : List α)
    (h : ∀ a ∈ l, p a = false) : splitSep p l = [l] := by
  induction l with
  | nil => rfl
  | cons a l ih =>
      have ha : p a = false := h a (List.mem_cons_self a l)
      have hl : splitSep p l = [l] := ih fun b hb => h b (List.mem_cons_of_mem a hb)
      simp [splitSep, ha, hl]

/-- How splitting acts on an append: the last segment of the left part
fuses with the first segment of the right part. -/
theorem splitSep_append (p : α → Bool) (xs ys : List α) :
    splitSep p (xs ++ ys) =
      (splitSep p xs).dropLast ++
        ((splitSep p xs).getLastD [] ++ (splitSep p ys).headD []) ::
          (splitSep p ys).tail := by
  induction xs with
  | nil =>
      obtain ⟨h, t, hy⟩ := splitSep_cons_exists p ys
      simp [splitSep, hy]
  | cons a xs ih =>
      obtain ⟨s₀, r, hx⟩ := splitSep_cons_exists p xs
      rw [hx] at ih
      by_cases ha : p a
      · have hL : splitSep p ((a :: xs) ++ ys) = [] :: splitSep p (xs ++ ys) := by
          simp [splitSep, ha]
        have hR : splitSep p (a :: xs) = [] :: s₀ :: r := by
          simp [splitSep, ha, hx]
        rw [hL, ih, hR, List.dropLast_cons₂,
            getLastD_cons_of_ne_nil _ _ (List.cons_ne_nil s₀ r)]
        simp
      · have hL : splitSep p ((a :: xs) ++ ys) =
            (a :: (splitSep p (xs ++ ys)).headD []) :: (splitSep p (xs ++ ys)).tail := by
          simp [splitSep, ha]
        have hR : splitSep p (a :: xs) = (a :: s₀) :: r := by
          simp [splitSep, ha, hx]
        cases r with
        | nil =>
            rw [hL, ih, hR]
            simp [List.getLastD]
        | cons r₀ rr =>
            rw [hL, ih, hR, List.dropLast_cons₂, List.dropLast_cons₂,
                getLastD_cons_of_ne_nil (a :: s₀) _ (List.cons_ne_nil r₀ rr),
                getLastD_cons_of_ne_nil s₀ _ (List.cons_ne_nil r₀ rr)]
            simp

theorem getLastD_mem_splitSep (p : α → Bool) (l : List α) :
    (splitSep p l).getLastD [] ∈ splitSep p l := by
  rw [List.getLastD_eq_getLast?,
      List.getLast?_eq_getLast_of_ne_nil (splitSep_ne_nil p l)]
  exact List.getLast_mem (splitSep_ne_nil p l)

/-- Counting non-blank segments of `u ++ v`: the inner segments of `u`
count on their own; the last segment of `u` is carried into `v`. -/
theorem countP_splitSep_append (p ws : α → Bool) (u v : List α) :
    List.countP (nonBlank ws) (splitSep p (u ++ v)) =
      List.countP (nonBlank ws) (splitSep p u).dropLast +
        List.countP (nonBlank ws)
          (splitSep p ((splitSep p u).getLastD [] ++ v)) := by
  have hlast : ∀ a ∈ (splitSep p u).getLastD [], p a = false := fun a ha =>
    not_p_of_mem_splitSep p u _ (getLastD_mem_splitSep p u) a ha
  rw [splitSep_append p u v, List.countP_append,
      splitSep_append p ((splitSep p u).getLastD []) v,
      splitSep_eq_single p _ hlast]
  simp

/-! ## Text-mode line counting (`count_lines_in_file`)

`code_counter.py` lines 33-45 and `code_counter_benchmark.py` lines
31-43 hold the identical function: open the file in text mode
(`encoding='utf-8', errors='ignore'`), iterate `for line in f`, and
count the lines with truthy `line.strip()`.  Text mode performs
universal-newline translation (`\r\n` and lone `\r` become `\n`)
before the line iteration. -/

/-- Universal-newline translation performed by Python text mode:
`\r\n` and a lone `\r` are both replaced by `\n`. -/
def univNewlines : List Char → List Char
  | [] => []
  | '\r' :: '\n' :: cs => '\n' :: univNewlines cs
  | '\r' :: cs => '\n' :: univNewlines cs
  | c :: cs => c :: univNewlines cs

/-- Python text-mode line iteration `for line in f`: each line keeps its
trailing `\n`; a final unterminated line is yielded bare; an empty file
yields no lines. -/
def pyLines : List Char → List (List Char)
  | [] => []
  | c :: cs =>
      let r := pyLines cs
      if c == '\n' then [c] :: r else (c :: r.headD []) :: r.tail

/-- `count_lines_in_file` (identical in `code_counter.py` and
`code_counter_benchmark.py`), applied to decoded file content: iterate
the text-mode lines and count those with truthy `line.strip()`. -/
def count_lines_in_file (content : List Char) : Nat :=
  List.countP (nonBlank isWSChar) (pyLines (univNewlines content))

/-- `count_lines_in_file` on the outcome of the `open`/read: the
`except (IOError, OSError, UnicodeDecodeError)` handler returns 0 for
any failed read (`none`). -/
def count_lines_in_file_result : Option (List Char) → Nat
  | none => 0
  | some content => count_lines_in_file content

/-- Structure of the Python line iteration in terms of splitting on
`\n`: every segment but the last reappears with its `\n` restored; the
last segment reappears iff it is nonempty. -/
theorem pyLines_eq_splitSep (t : List Char) :
    pyLines t =
      (splitSep (fun c => c == '\n') t).dropLast.map (· ++ ['\n']) ++
        (if (splitSep (fun c => c == '\n') t).getLastD [] = [] then []
         else [(splitSep (fun c => c == '\n') t).getLastD []]) := by
  induction t with
  | nil => rfl
  | cons c t ih =>
      obtain ⟨s₀, r, hs⟩ := splitSep_cons_exists (fun c => c == '\n') t
      rw [hs] at ih
      by_cases hc : c = '\n'
      · have hL : pyLines (c :: t) = [c] :: pyLines t := by
          simp [pyLines, hc]
        have hR : splitSep (fun c => c == '\n') (c :: t) = [] :: s₀ :: r := by
          simp [splitSep, hc, hs]
        rw [hL, ih, hR, List.dropLast_cons₂,
            getLastD_cons_of_ne_nil _ _ (List.cons_ne_nil s₀ r)]
        simp [hc]
      · have hL : pyLines (c :: t) =
            (c :: (pyLines t).headD []) :: (pyLines t).tail := by
          simp [pyLines, hc]
        have hR : splitSep (fun c => c == '\n') (c :: t) = (c :: s₀) :: r := by
          simp [splitSep, hc, hs]
        cases r with
        | nil =>
            rw [hL, ih, hR]
            by_cases h0 : s₀ = [] <;> simp [h0, List.getLastD]
        | cons r₀ rr =>
            rw [hL, ih, hR, List.dropLast_cons₂, List.dropLast_cons₂,
                getLastD_cons_of_ne_nil (c :: s₀) _ (List.cons_ne_nil r₀ rr),
                getLastD_cons_of_ne_nil s₀ _ (List.cons_ne_nil r₀ rr)]
            simp

theorem univNewlines_cr_cons (c : Char) (hc : c ≠ '\n') (cs : List Char) :
    univNewlines ('\r' :: c :: cs) = '\n' :: univNewlines (c :: cs) := by
  rw [univNewlines.eq_3]
  intro cs1 h
  exact hc (by injection h)

theorem univNewlines_cons (c : Char) (hc : c ≠ '\r') (cs : List Char) :
    univNewlines (c :: cs) = c :: univNewlines cs := by
  rw [univNewlines.eq_4]
  · intro _ h1 _
    exact hc h1
  · intro h
    exact hc h

/-- Appending a final `\n` to the raw content: after universal-newline
translation it either fuses with a trailing `\r` or stays as a new
final `\n`. -/
theorem univNewlines_append_newline (s : List Char) :
    univNewlines (s ++ ['\n']) =
      if s.getLast? = some '\r' then univNewlines s
      else univNewlines s ++ ['\n'] := by
  induction s using univNewlines.induct with
  | case1 => simp [univNewlines]
  | case2 cs ih =>
      rw [List.cons_append, List.cons_append, univNewlines.eq_2, ih,
          univNewlines.eq_2]
      cases cs with
      | nil => simp [univNewlines]
      | cons d ds =>
          rw [List.getLast?_cons_cons, List.getLast?_cons_cons]
          split <;> rfl
  | case3 cs h ih =>
      cases cs with
      | nil =>
          have he : (['\x0d'] ++ ['\n'] : List Char) = '\x0d' :: '\n' :: [] := rfl
          rw [he, univNewlines.eq_2]
          simp [univNewlines, List.getLast?_singleton]
      | cons c cs' =>
          have hc : c ≠ '\n' := fun he => h cs' (by rw [he])
          rw [List.cons_append, List.cons_append,
              univNewlines_cr_cons c hc,
              univNewlines_cr_cons c hc, ← List.cons_append, ih,
              List.getLast?_cons_cons]
          split <;> rfl
  | case4 c cs h1 h2 ih =>
      have hc : c ≠ '\r' := fun he => h2 he
      rw [List.cons_append, univNewlines_cons c hc, ih,
          univNewlines_cons c hc]
      cases cs with
      | nil => simp [List.getLast?_singleton, univNewlines, hc]
      | cons d ds =>
          rw [List.getLast?_cons_cons]
          split <;> rfl

/-- Counting the non-blank text-mode lines is the same as counting the
non-blank segments of the `\n`-split. -/
theorem countP_pyLines_eq (t : List Char) :
    List.countP (nonBlank isWSChar) (pyLines t) =
      List.countP (nonBlank isWSChar) (splitSep (fun c => c == '\n') t) := by
  have hnl : isWSChar '\n' = true := by decide
  have hpt : ∀ l : List Char,
      nonBlank isWSChar (l ++ ['\n']) = nonBlank isWSChar l := by
    intro l
    simp [nonBlank, List.any_append, hnl]
  rw [pyLines_eq_splitSep, List.countP_append, List.countP_map]
  have h1 : List.countP ((nonBlank isWSChar) ∘ (· ++ ['\n']))
        (splitSep (fun c => c == '\n') t).dropLast =
      List.countP (nonBlank isWSChar)
        (splitSep (fun c => c == '\n') t).dropLast :=
    List.countP_congr (fun l _ => by simp [Function.comp, hpt l])
  rw [h1]
  conv_rhs =>
    rw [← dropLast_append_getLastD (splitSep (fun c => c == '\n') t)
          (splitSep_ne_nil _ _) []]
  rw [List.countP_append]
  simp only [List.getLastD_eq_getLast?]
  by_cases h0 : (splitSep (fun c => c == '\n') t).getLast?.getD [] = []
  · rw [if_pos h0, h0]
    simp [nonBlank]
  · rw [if_neg h0]

example : count_lines_in_file ['a', '\n', '\n', 'b', '\n'] = 2 := by decide
example : count_lines_in_file ['a', '\n', 'b'] = 2 := by decide
example : count_lines_in_file ['a', '\n', ' ', '\t', '\n', 'b'] = 2 := by decide
example : count_lines_in_file [] = 0 := by decide
example : count_lines_in_file ['\n'] = 0 := by decide
example : count_lines_in_file ['a', '\r', 'b'] = 2 := by decide

/-- C1: for every file content, `count_lines_in_file` returns exactly the
number of lines that remain non-empty after trimming whitespace when the
content is split on line boundaries (the `\n` positions after text-mode
newline translation); the final unterminated line is counted, and the
result does not depend on the presence of a trailing terminator. -/
theorem count_lines_in_file_correct (content : List Char) :
    count_lines_in_file content =
      List.countP (nonBlank isWSChar)
        (splitSep (fun c => c == '\n') (univNewlines content)) ∧
    count_lines_in_file (content ++ ['\n']) = count_lines_in_file content := by
  constructor
  · exact countP_pyLines_eq (univNewlines content)
  · show List.countP (nonBlank isWSChar)
        (pyLines (univNewlines (content ++ ['\n']))) =
      List.countP (nonBlank isWSChar) (pyLines (univNewlines content))
    rw [univNewlines_append_newline]
    by_cases h : content.getLast? = some '\r'
    · rw [if_pos h]
    · rw [if_neg h, countP_pyLines_eq, countP_pyLines_eq,
          countP_splitSep_append]
      conv_rhs =>
        rw [← dropLast_append_getLastD
              (splitSep (fun c => c == '\n') (univNewlines content))
              (splitSep_ne_nil _ _) [],
            List.countP_append]
      congr 1
      have hlast : ∀ a ∈ (splitSep (fun c => c == '\n')
          (univNewlines content)).getLastD [], (a == '\n') = false :=
        fun a ha => not_p_of_mem_splitSep _ _ _
          (getLastD_mem_splitSep _ _) a ha
      rw [splitSep_append, splitSep_eq_single _ _ hlast]
      simp [splitSep, List.countP_cons, nonBlank]

/-! ## Byte-level line counting (`count_lines_fast_bytes`)

`code_counter_turbo.py` lines 18-73: open the file in binary mode.
Empty file: 0.  Under 1024 bytes: read the whole content, split on the
byte `\n`, count the segments with truthy `strip()`.  Otherwise
memory-map the file and scan it in 64KB chunks, carrying the trailing
incomplete line from chunk to chunk, counting the completed segments
with truthy `strip()`, and finally the carried line if its `strip()` is
truthy.  (The `except (OSError, ValueError)` fallback is taken only
when `mmap` itself fails; the embedding models the mmap path.)
`except Exception: return 0` makes every failed read count 0. -/

/-- The small-file path of `count_lines_fast_bytes`:
`sum(1 for line in content.split(b'\n') if line.strip())`. -/
def countBytesSplit (content : List Nat) : Nat :=
  List.countP (nonBlank isWSByte) (splitSep (fun b => b == 10) content)

/-- `mm[pos:pos+chunk_size]` chunking: the content cut into pieces of
`bs` bytes (the last piece possibly shorter); `bs = 64 * 1024` in the
source. -/
def chunksOf (bs : Nat) : List α → List (List α)
  | [] => []
  | a :: l => (a :: l.take (bs - 1)) :: chunksOf bs (l.drop (bs - 1))
termination_by l => l.length
decreasing_by simp; omega

/-- The chunked mmap loop of `count_lines_fast_bytes`: prepend the
carried `current_line` to each chunk, split on `\n`, count all
segments but the last, carry the last; at the end count the carried
line if non-blank. -/
def chunkScan (current_line : List Nat) : List (List Nat) → Nat
  | [] => if nonBlank isWSByte current_line then 1 else 0
  | chunk :: rest =>
      let lines := splitSep (fun b => b == 10) (current_line ++ chunk)
      List.countP (nonBlank isWSByte) lines.dropLast +
        chunkScan (lines.getLastD []) rest

/-- `count_lines_fast_bytes` on the raw byte content of a readable
file: size 0 returns 0, small files take the whole-content split,
larger files take the chunked mmap scan. -/
def count_lines_fast_bytes (content : List Nat) : Nat :=
  if content.length = 0 then 0
  else if content.length < 1024 then countBytesSplit content
  else chunkScan [] (chunksOf (64 * 1024) content)

/-- `count_lines_fast_bytes` on the outcome of the read: the
`except Exception` handler returns 0 for any failure (`none`). -/
def count_lines_fast_bytes_result : Option (List Nat) → Nat
  | none => 0
  | some content => count_lines_fast_bytes content

theorem join_chunksOf (bs : Nat) (l : List α) : (chunksOf bs l).flatten = l := by
  induction l using chunksOf.induct bs with
  | case1 => simp [chunksOf]
  | case2 a l ih =>
      rw [chunksOf]
      rw [List.flatten_cons, ih, List.cons_append, List.take_append_drop]

/-- The chunked scan with a separator-free carry counts the non-blank
segments of carry-plus-remaining-content. -/
theorem chunkScan_eq_countBytesSplit (chunks : List (List Nat))
    (carry : List Nat) (hc : ∀ a ∈ carry, (a == 10) = false) :
    chunkScan carry chunks = countBytesSplit (carry ++ chunks.flatten) := by
  induction chunks generalizing carry with
  | nil =>
      rw [chunkScan, List.flatten_nil, List.append_nil, countBytesSplit,
          splitSep_eq_single _ _ hc]
      simp [List.countP_cons]
  | cons chunk rest ih =>
      rw [chunkScan, List.flatten_cons, ← List.append_assoc, countBytesSplit,
          countP_splitSep_append]
      have hlast : ∀ a ∈ (splitSep (fun b => b == 10)
          (carry ++ chunk)).getLastD [], (a == 10) = false :=
        fun a ha => not_p_of_mem_splitSep _ _ _
          (getLastD_mem_splitSep _ _) a ha
      rw [ih _ hlast, countBytesSplit]

/-- Every path of `count_lines_fast_bytes` computes the whole-content
split count. -/
theorem count_lines_fast_bytes_eq_split (content : List Nat) :
    count_lines_fast_bytes content = countBytesSplit content := by
  rw [count_lines_fast_bytes]
  by_cases h0 : content.length = 0
  · rw [if_pos h0, List.length_eq_zero.mp h0]
    rfl
  · rw [if_neg h0]
    by_cases h1 : content.length < 1024
    · rw [if_pos h1]
    · rw [if_neg h1,
          chunkScan_eq_countBytesSplit _ [] (by intro a ha; simp at ha),
          List.nil_append, join_chunksOf]

/-! ## ASCII content: byte-level versus text-level counting -/

/-- Decoding ASCII bytes: UTF-8 decoding is the identity code-point
map on bytes below 128. -/
def asciiDecode (bs : List Nat) : List Char := bs.map Char.ofNat

/-- Every carriage return in the content is immediately followed by a
line feed (no lone `\r`). -/
def noLoneCR : List Nat → Bool
  | [] => true
  | 13 :: 10 :: rest => noLoneCR rest
  | 13 :: _ => false
  | _ :: rest => noLoneCR rest

/-- Byte-level universal-newline translation: the byte image of what
Python text mode does to the decoded characters. -/
def univNLBytes : List Nat → List Nat
  | [] => []
  | 13 :: 10 :: rest => 10 :: univNLBytes rest
  | 13 :: rest => 10 :: univNLBytes rest
  | b :: rest => b :: univNLBytes rest

/-- A trailing `\r` left at the end of a segment by splitting `\r\n`
content on `\n`; `bytes.strip()` ignores it. -/
def stripT13 (l : List Nat) : List Nat :=
  if l.getLast? = some 13 then l.dropLast else l

theorem toNat_ofNat128 (b : Nat) (hb : b < 128) : (Char.ofNat b).toNat = b := by
  have hv : b.isValidChar := Or.inl (by omega)
  rw [Char.ofNat, dif_pos hv]
  simp [Char.ofNatAux, Char.toNat, UInt32.toNat, Nat.mod_eq_of_lt]

theorem ofNat_eq_char_iff (b : Nat) (hb : b < 128) (c : Char)
    (hc : c.toNat < 128) : Char.ofNat b = c ↔ b = c.toNat := by
  constructor
  · intro h
    rw [← toNat_ofNat128 b hb, h]
  · intro h
    subst h
    have h1 := toNat_ofNat128 c.toNat hc
    apply Char.eq_of_val_eq
    apply UInt32.toNat.inj
    simpa [Char.toNat] using h1

theorem isWSChar_ofNat (b : Nat) (hb : b < 128)
    (hsep : ¬(b = 28 ∨ b = 29 ∨ b = 30 ∨ b = 31)) :
    isWSChar (Char.ofNat b) = isWSByte b := by
  rw [isWSChar, toNat_ofNat128 b hb, isWSByte, Bool.eq_iff_iff]
  simp
  omega

theorem univNLBytes_cr_cons (r : Nat) (hr : r ≠ 10) (l : List Nat) :
    univNLBytes (13 :: r :: l) = 10 :: univNLBytes (r :: l) := by
  rw [univNLBytes.eq_3]
  intro cs1 h
  exact hr (by injection h)

theorem univNLBytes_cons (b : Nat) (hb : b ≠ 13) (l : List Nat) :
    univNLBytes (b :: l) = b :: univNLBytes l := by
  rw [univNLBytes.eq_4]
  · intro _ h1 _
    exact hb h1
  · intro h
    exact hb h

theorem noLoneCR_cons (b : Nat) (hb : b ≠ 13) (l : List Nat) :
    noLoneCR (b :: l) = noLoneCR l := by
  rw [noLoneCR.eq_4]
  · intro _ h1 _
    exact hb h1
  · intro h
    exact hb h

theorem noLoneCR_cr (r : Nat) (hr : r ≠ 10) (l : List Nat) :
    noLoneCR (13 :: r :: l) = false := by
  rw [noLoneCR.eq_3]
  intro cs1 h
  exact hr (by injection h)

theorem noLoneCR_cr_nil : noLoneCR [13] = false := by
  rw [noLoneCR.eq_3]
  intro cs1 h
  exact absurd h (by simp)

theorem mem_univNLBytes (bs : List Nat) :
    ∀ b ∈ univNLBytes bs, b = 10 ∨ b ∈ bs := by
  induction bs using univNLBytes.induct with
  | case1 => simp [univNLBytes]
  | case2 rest ih =>
      intro b hb
      rw [univNLBytes.eq_2] at hb
      rcases List.mem_cons.mp hb with h | h
      · exact Or.inl h
      · rcases ih b h with h | h
        · exact Or.inl h
        · exact Or.inr (by simp [h])
  | case3 rest hne ih =>
      intro b hb
      have hr : univNLBytes (13 :: rest) = 10 :: univNLBytes rest := by
        cases rest with
        | nil => rfl
        | cons r₀ rest' =>
            exact univNLBytes_cr_cons r₀ (fun he => hne rest' (by rw [he])) rest'
      rw [hr] at hb
      rcases List.mem_cons.mp hb with h | h
      · exact Or.inl h
      · rcases ih b h with h | h
        · exact Or.inl h
        · exact Or.inr (by simp [h])
  | case4 b' rest h1 h2 ih =>
      intro b hb
      rw [univNLBytes_cons b' (fun he => h2 he) rest] at hb
      rcases List.mem_cons.mp hb with h | h
      · exact Or.inr (by simp [h])
      · rcases ih b h with h | h
        · exact Or.inl h
        · exact Or.inr (by simp [h])

theorem no13_univNLBytes (bs : List Nat) (h : noLoneCR bs = true) :
    ∀ b ∈ univNLBytes bs, b ≠ 13 := by
  induction bs using univNLBytes.induct with
  | case1 => simp [univNLBytes]
  | case2 rest ih =>
      rw [noLoneCR.eq_2] at h
      intro b hb
      rw [univNLBytes.eq_2] at hb
      rcases List.mem_cons.mp hb with hh | hh
      · omega
      · exact ih h b hh
  | case3 rest hne ih =>
      exfalso
      cases rest with
      | nil => rw [noLoneCR_cr_nil] at h; exact Bool.false_ne_true h
      | cons r₀ rest' =>
          rw [noLoneCR_cr r₀ (fun he => hne rest' (by rw [he])) rest'] at h
          exact Bool.false_ne_true h
  | case4 b' rest h1 h2 ih =>
      rw [noLoneCR_cons b' (fun he => h2 he) rest] at h
      intro b hb
      rw [univNLBytes_cons b' (fun he => h2 he) rest] at hb
      rcases List.mem_cons.mp hb with hh | hh
      · subst hh
        exact fun he => h2 he
      · exact ih h b hh

/-- Decoding commutes with universal-newline translation on ASCII
content. -/
theorem univNewlines_asciiDecode (bs : List Nat) (hb : ∀ b ∈ bs, b < 128) :
    univNewlines (asciiDecode bs) = asciiDecode (univNLBytes bs) := by
  have h13 : Char.ofNat 13 = '\r' := by decide
  have h10 : Char.ofNat 10 = '\n' := by decide
  induction bs using univNLBytes.induct with
  | case1 => rfl
  | case2 rest ih =>
      have hb' : ∀ b ∈ rest, b < 128 := fun b h => hb b (by simp [h])
      have hdec : asciiDecode (13 :: 10 :: rest) =
          '\r' :: '\n' :: asciiDecode rest := by
        simp [asciiDecode, h13, h10]
      rw [hdec, univNewlines.eq_2, ih hb', univNLBytes.eq_2]
      simp [asciiDecode, h10]
  | case3 rest hne ih =>
      cases rest with
      | nil => rfl
      | cons r₀ rest' =>
          have hr : r₀ ≠ 10 := fun he => hne rest' (by rw [he])
          have hr128 : r₀ < 128 := hb r₀ (by simp)
          have hb' : ∀ b ∈ r₀ :: rest', b < 128 := fun b h =>
            hb b (List.mem_cons_of_mem 13 h)
          have hdec : asciiDecode (13 :: r₀ :: rest') =
              '\r' :: Char.ofNat r₀ :: asciiDecode rest' := by
            simp [asciiDecode, h13]
          have hnech : Char.ofNat r₀ ≠ '\n' := fun he =>
            hr ((ofNat_eq_char_iff r₀ hr128 '\n' (by decide)).mp he)
          rw [hdec, univNewlines_cr_cons _ hnech,
              show (Char.ofNat r₀ :: asciiDecode rest' : List Char) =
                asciiDecode (r₀ :: rest') from rfl,
              ih hb', univNLBytes_cr_cons r₀ hr rest']
          simp [asciiDecode, h10]
  | case4 b rest h1 h2 ih =>
      have hb13 : b ≠ 13 := fun he => h2 he
      have hb128 : b < 128 := hb b (by simp)
      have hb' : ∀ x ∈ rest, x < 128 := fun x h =>
        hb x (List.mem_cons_of_mem b h)
      have hnech : Char.ofNat b ≠ '\r' := fun he =>
        hb13 ((ofNat_eq_char_iff b hb128 '\r' (by decide)).mp he)
      have hdec : asciiDecode (b :: rest) =
          Char.ofNat b :: asciiDecode rest := rfl
      rw [hdec, univNewlines_cons _ hnech, ih hb',
          univNLBytes_cons b hb13 rest]
      rfl

/-- Members of split segments are members of the split list. -/
theorem mem_of_mem_splitSep (p : α → Bool) (l : List α) :
    ∀ s ∈ splitSep p l, ∀ a ∈ s, a ∈ l := by
  induction l with
  | nil =>
      intro s hs a ha
      simp [splitSep] at hs
      simp [hs] at ha
  | cons b l ih =>
      obtain ⟨s₀, r, hr⟩ := splitSep_cons_exists p l
      intro s hs a ha
      simp only [splitSep, hr] at hs
      by_cases hb : p b
      · simp [hb] at hs
        rcases hs with h | h
        · simp [h] at ha
        · exact List.mem_cons_of_mem b
            (ih s (by rw [hr]; exact List.mem_cons.mpr h) a ha)
      · simp [hb] at hs
        rcases hs with h | h
        · subst h
          rcases List.mem_cons.mp ha with ha | ha
          · exact ha ▸ List.mem_cons_self a l
          · exact List.mem_cons_of_mem b
              (ih s₀ (hr ▸ List.mem_cons_self s₀ r) a ha)
        · exact List.mem_cons_of_mem b
            (ih s (hr ▸ List.mem_cons_of_mem s₀ h) a ha)

/-- Decoding commutes with splitting on the newline. -/
theorem splitSep_asciiDecode (cs : List Nat) (hb : ∀ b ∈ cs, b < 128) :
    splitSep (fun c => c == '\n') (asciiDecode cs) =
      (splitSep (fun b => b == 10) cs).map asciiDecode := by
  induction cs with
  | nil => rfl
  | cons b cs ih =>
      have hb' : ∀ x ∈ cs, x < 128 := fun x hx =>
        hb x (List.mem_cons_of_mem b hx)
      have hbb : b < 128 := hb b (List.mem_cons_self b cs)
      have h10 : Char.ofNat 10 = '\n' := by decide
      obtain ⟨s₀, r, hs⟩ := splitSep_cons_exists (fun x => x == 10) cs
      by_cases hb10 : b = 10
      · subst hb10
        have hL : splitSep (fun c => c == '\n') (asciiDecode (10 :: cs)) =
            [] :: splitSep (fun c => c == '\n') (asciiDecode cs) := by
          simp [asciiDecode, splitSep, h10]
        have hR : splitSep (fun x => x == 10) (10 :: cs) =
            [] :: s₀ :: r := by
          simp [splitSep, hs]
        rw [hL, hR, ih hb', hs]
        simp [asciiDecode]
      · have hnech : (Char.ofNat b == '\n') = false := by
          simp only [beq_eq_false_iff_ne, ne_eq,
            ofNat_eq_char_iff b hbb '\n' (by decide)]
          simpa using hb10
        have hL : splitSep (fun c => c == '\n') (asciiDecode (b :: cs)) =
            (Char.ofNat b ::
              (splitSep (fun c => c == '\n') (asciiDecode cs)).headD []) ::
              (splitSep (fun c => c == '\n') (asciiDecode cs)).tail := by
          simp [asciiDecode, splitSep, hnech]
        have hR : splitSep (fun x => x == 10) (b :: cs) = (b :: s₀) :: r := by
          simp [splitSep, hb10, hs]
        rw [hL, hR, ih hb', hs]
        simp [asciiDecode]

/-- Decoding preserves blankness on ASCII content without the
information-separator bytes. -/
theorem nonBlank_asciiDecode (s : List Nat) (hb : ∀ b ∈ s, b < 128)
    (hsep : ∀ b ∈ s, ¬(b = 28 ∨ b = 29 ∨ b = 30 ∨ b = 31)) :
    nonBlank isWSChar (asciiDecode s) = nonBlank isWSByte s := by
  induction s with
  | nil => rfl
  | cons b s ih =>
      have h1 := isWSChar_ofNat b (hb b (List.mem_cons_self b s))
        (hsep b (List.mem_cons_self b s))
      have ih' := ih (fun x hx => hb x (List.mem_cons_of_mem b hx))
        (fun x hx => hsep x (List.mem_cons_of_mem b hx))
      show (!(isWSChar (Char.ofNat b)) || nonBlank isWSChar (asciiDecode s)) =
        (!(isWSByte b) || nonBlank isWSByte s)
      rw [h1, ih']

theorem stripT13_cons (b : Nat) (hb : b ≠ 13) (s : List Nat) :
    stripT13 (b :: s) = b :: stripT13 s := by
  cases s with
  | nil => simp [stripT13, List.getLast?_singleton, hb]
  | cons t ts =>
      rw [stripT13, stripT13, List.getLast?_cons_cons]
      split
      · rw [List.dropLast_cons₂]
      · rfl

/-- Splitting the translated bytes on `\n`: each segment of the
original split loses its trailing `\r`. -/
theorem splitSep_univNLBytes (bs : List Nat) (h : noLoneCR bs = true) :
    splitSep (fun b => b == 10) (univNLBytes bs) =
      (splitSep (fun b => b == 10) bs).map stripT13 := by
  induction bs using univNLBytes.induct with
  | case1 => rfl
  | case2 rest ih =>
      rw [noLoneCR.eq_2] at h
      obtain ⟨s₀, r, hs⟩ := splitSep_cons_exists (fun x => x == 10) rest
      have hL : splitSep (fun b => b == 10) (univNLBytes (13 :: 10 :: rest)) =
          [] :: splitSep (fun b => b == 10) (univNLBytes rest) := by
        rw [univNLBytes.eq_2]
        simp [splitSep]
      have hR : splitSep (fun b => b == 10) (13 :: 10 :: rest) =
          [13] :: s₀ :: r := by
        simp [splitSep, hs]
      rw [hL, ih h, hR, hs]
      simp [stripT13]
  | case3 rest hne ih =>
      exfalso
      cases rest with
      | nil => rw [noLoneCR_cr_nil] at h; exact Bool.false_ne_true h
      | cons r₀ rest' =>
          rw [noLoneCR_cr r₀ (fun he => hne rest' (by rw [he])) rest'] at h
          exact Bool.false_ne_true h
  | case4 b rest h1 h2 ih =>
      have hb13 : b ≠ 13 := fun he => h2 he
      rw [noLoneCR_cons b hb13 rest] at h
      obtain ⟨s₀, r, hs⟩ := splitSep_cons_exists (fun x => x == 10) rest
      rw [univNLBytes_cons b hb13 rest]
      by_cases hb10 : b = 10
      · subst hb10
        have hL : splitSep (fun b => b == 10) (10 :: univNLBytes rest) =
            [] :: splitSep (fun b => b == 10) (univNLBytes rest) := by
          simp [splitSep]
        have hR : splitSep (fun b => b == 10) (10 :: rest) =
            [] :: s₀ :: r := by
          simp [splitSep, hs]
        rw [hL, ih h, hR, hs]
        simp [stripT13]
      · have hL : splitSep (fun x => x == 10) (b :: univNLBytes rest) =
            (b :: (splitSep (fun x => x == 10) (univNLBytes rest)).headD []) ::
              (splitSep (fun x => x == 10) (univNLBytes rest)).tail := by
          simp [splitSep, hb10]
        have hR : splitSep (fun x => x == 10) (b :: rest) = (b :: s₀) :: r := by
          simp [splitSep, hb10, hs]
        rw [hL, ih h, hR, hs]
        simp only [List.map_cons, List.headD_cons, List.tail_cons]
        rw [stripT13_cons b hb13 s₀]

/-- Dropping a trailing `\r` does not change whether a segment is
blank. -/
theorem countP_map_stripT13 (S : List (List Nat)) :
    List.countP (nonBlank isWSByte) (S.map stripT13) =
      List.countP (nonBlank isWSByte) S := by
  rw [List.countP_map]
  apply List.countP_congr
  intro s _
  show nonBlank isWSByte (stripT13 s) = true ↔ nonBlank isWSByte s = true
  rw [stripT13]
  split
  · case _ h13 =>
      conv_rhs => rw [← List.dropLast_append_getLast? 13 h13]
      simp [nonBlank, List.any_append, isWSByte]
  · exact Iff.rfl

example : count_lines_fast_bytes [97, 10, 10, 98, 10] = 2 := by decide
example : count_lines_fast_bytes [97, 13, 98] = 1 := by decide
example : count_lines_fast_bytes [] = 0 := by decide
example : count_lines_fast_bytes [97, 13, 10, 98] = 2 := by decide

/-- C10: for every byte content, the chunked mmap scan of
`count_lines_fast_bytes` (64KB chunks, trailing incomplete line carried
into the next chunk, split segments counted when non-blank, the final
carried line counted if non-blank) equals the small-file path that
splits the entire content on the byte `\n` at once. -/
theorem chunked_scan_eq_whole_split (content : List Nat) :
    chunkScan [] (chunksOf (64 * 1024) content) = countBytesSplit content := by
  rw [chunkScan_eq_countBytesSplit _ [] (by intro a ha; simp at ha),
      List.nil_append, join_chunksOf]

/-- C2 counterexample: the ASCII content `b"a\rb"` is well-formed
ASCII text, yet the byte-level counter returns 1 (no `\n`, one
segment) while the text-mode counter returns 2 (text mode treats the
lone `\r` as a line boundary). -/
theorem fast_bytes_ne_text_on_lone_cr :
    count_lines_fast_bytes [97, 13, 98] ≠
      count_lines_in_file (asciiDecode [97, 13, 98]) := by decide

/-- C2 (amended): for ASCII content without the information-separator
bytes 0x1c-0x1f and in which every `\r` is immediately followed by
`\n`, the byte-level counter agrees with the text-mode counter. -/
theorem fast_bytes_eq_text_count (bs : List Nat)
    (hascii : ∀ b ∈ bs, b < 128)
    (hsep : ∀ b ∈ bs, ¬(b = 28 ∨ b = 29 ∨ b = 30 ∨ b = 31))
    (hcr : noLoneCR bs = true) :
    count_lines_fast_bytes bs = count_lines_in_file (asciiDecode bs) := by
  have hb' : ∀ b ∈ univNLBytes bs, b < 128 := by
    intro b hbm
    rcases mem_univNLBytes bs b hbm with h | h
    · omega
    · exact hascii b h
  rw [count_lines_fast_bytes_eq_split, count_lines_in_file,
      countP_pyLines_eq, univNewlines_asciiDecode bs hascii,
      splitSep_asciiDecode _ hb', List.countP_map]
  have hcong : ∀ s ∈ splitSep (fun b => b == 10) (univNLBytes bs),
      ((nonBlank isWSChar) ∘ asciiDecode) s = true ↔
        nonBlank isWSByte s = true := by
    intro s hsm
    have hmem : ∀ b ∈ s, b ∈ univNLBytes bs :=
      mem_of_mem_splitSep _ _ s hsm
    have h1 : ∀ b ∈ s, b < 128 := fun b hbm => hb' b (hmem b hbm)
    have h2 : ∀ b ∈ s, ¬(b = 28 ∨ b = 29 ∨ b = 30 ∨ b = 31) := by
      intro b hbm
      rcases mem_univNLBytes bs b (hmem b hbm) with h | h
      · omega
      · exact hsep b h
    rw [Function.comp, nonBlank_asciiDecode s h1 h2]
  rw [List.countP_congr hcong, splitSep_univNLBytes bs hcr,
      countP_map_stripT13, countBytesSplit]

/-- Witness for the amended C2 at the CRLF content `b"a\r\nb"`. -/
theorem fast_bytes_eq_text_count_witness :
    (∀ b ∈ [97, 13, 10, 98], b < 128) ∧
    (∀ b ∈ [97, 13, 10, 98], ¬(b = 28 ∨ b = 29 ∨ b = 30 ∨ b = 31)) ∧
    noLoneCR [97, 13, 10, 98] = true ∧
    count_lines_fast_bytes [97, 13, 10, 98] =
      count_lines_in_file (asciiDecode [97, 13, 10, 98]) :=
  ⟨by decide, by decide, by decide,
    fast_bytes_eq_text_count [97, 13, 10, 98] (by decide) (by decide)
      (by decide)⟩

/-! ## Work items, batch processing and result merging

`code_counter.py` lines 92-105 (`process_file_batch`) and 176-196 (the
merge loop of `count_lines_in_directory`).  A work item is a
`(file_path, extension)` pair; what matters for counting is the read
outcome of the path, so items carry it directly. -/

/-- A `(file_path, extension)` work item, carrying what reading the
path yields (`none` = unreadable). -/
structure WorkItem where
  content : Option (List Char)
  extension : String

/-- A per-batch result: `batch_lines`, `batch_extension_counts`,
`batch_file_counts` (defaultdicts modelled as total functions with
default 0). -/
@[ext]
structure PartialResult where
  lines : Nat
  extLines : String → Nat
  extFiles : String → Nat

/-- The zero-initialised counters at the top of `process_file_batch`
(and of `count_lines_in_directory`). -/
def zeroPartial : PartialResult :=
  { lines := 0, extLines := fun _ => 0, extFiles := fun _ => 0 }

/-- `d[ext] += n` on a defaultdict. -/
def bumpExt (m : String → Nat) (ext : String) (n : Nat) : String → Nat :=
  fun e => if e = ext then m e + n else m e

/-- One iteration of the loop of `process_file_batch`: count the file;
if the count is positive add it to the batch totals. -/
def processItem (acc : PartialResult) (item : WorkItem) : PartialResult :=
  let line_count := count_lines_in_file_result item.content
  if line_count > 0 then
    { lines := acc.lines + line_count,
      extLines := bumpExt acc.extLines item.extension line_count,
      extFiles := bumpExt acc.extFiles item.extension 1 }
  else acc

/-- `process_file_batch` (`code_counter.py` lines 92-105). -/
def process_file_batch (batch : List WorkItem) : PartialResult :=
  batch.foldl processItem zeroPartial

/-- The merge step of the coordinator (`code_counter.py` lines
186-191): `total_lines += batch_lines` and pointwise addition of the
per-extension counters. -/
def mergeResult (acc p : PartialResult) : PartialResult :=
  { lines := acc.lines + p.lines,
    extLines := fun e => acc.extLines e + p.extLines e,
    extFiles := fun e => acc.extFiles e + p.extFiles e }

/-- Merging a list of per-batch results into the aggregate, in arrival
order. -/
def mergeAll (ps : List PartialResult) : PartialResult :=
  ps.foldl mergeResult zeroPartial

/-- The single-threaded baseline loop (`code_counter_benchmark.py`
lines 99-104): the identical accumulation applied to all files in one
pass. -/
def sequentialCount (items : List WorkItem) : PartialResult :=
  items.foldl processItem zeroPartial

theorem mergeResult_zero_right (p : PartialResult) :
    mergeResult p zeroPartial = p := by
  ext e <;> simp [mergeResult, zeroPartial]

theorem mergeResult_zero_left (p : PartialResult) :
    mergeResult zeroPartial p = p := by
  ext e <;> simp [mergeResult, zeroPartial]

theorem mergeResult_assoc (a b c : PartialResult) :
    mergeResult (mergeResult a b) c = mergeResult a (mergeResult b c) := by
  ext e <;> simp [mergeResult, Nat.add_assoc]

theorem processItem_merge (a b : PartialResult) (item : WorkItem) :
    processItem (mergeResult a b) item = mergeResult a (processItem b item) := by
  rw [processItem, processItem]
  split
  · ext e <;> simp [mergeResult, bumpExt, Nat.add_assoc]
    all_goals split <;> omega
  · rfl

theorem foldl_processItem_merge (items : List WorkItem)
    (a b : PartialResult) :
    items.foldl processItem (mergeResult a b) =
      mergeResult a (items.foldl processItem b) := by
  induction items generalizing b with
  | nil => rfl
  | cons item items ih => rw [List.foldl_cons, List.foldl_cons,
      processItem_merge, ih]

theorem process_file_batch_append (xs ys : List WorkItem) :
    process_file_batch (xs ++ ys) =
      mergeResult (process_file_batch xs) (process_file_batch ys) := by
  rw [process_file_batch, List.foldl_append]
  conv_lhs => rw [← mergeResult_zero_right (List.foldl processItem zeroPartial xs)]
  rw [foldl_processItem_merge]
  rfl

theorem foldl_mergeResult_merge (ps : List PartialResult)
    (a b : PartialResult) :
    ps.foldl mergeResult (mergeResult a b) =
      mergeResult a (ps.foldl mergeResult b) := by
  induction ps generalizing b with
  | nil => rfl
  | cons p ps ih => rw [List.foldl_cons, List.foldl_cons,
      mergeResult_assoc, ih]

theorem mergeAll_map_process (batches : List (List WorkItem)) :
    mergeAll (batches.map process_file_batch) =
      process_file_batch batches.flatten := by
  induction batches with
  | nil => rfl
  | cons batch batches ih =>
      rw [List.map_cons, mergeAll, List.foldl_cons, mergeResult_zero_left]
      conv_lhs => rw [← mergeResult_zero_right (process_file_batch batch)]
      rw [foldl_mergeResult_merge,
          show List.foldl mergeResult zeroPartial
              (batches.map process_file_batch) =
            mergeAll (batches.map process_file_batch) from rfl,
          ih, List.flatten_cons, process_file_batch_append]

theorem lines_mergeAll (ps : List PartialResult) :
    (mergeAll ps).lines = (ps.map PartialResult.lines).sum := by
  induction ps with
  | nil => rfl
  | cons p ps ih =>
      rw [mergeAll, List.foldl_cons, mergeResult_zero_left]
      conv_lhs => rw [← mergeResult_zero_right p]
      rw [foldl_mergeResult_merge,
          show List.foldl mergeResult zeroPartial ps = mergeAll ps from rfl]
      simp [mergeResult, ih]

/-- C3: for every batching of the work items, merging the per-batch
`PartialResult`s of `process_file_batch` yields the same total as the
single-threaded sequential pass over the same files, and the sum of
the per-batch line counts equals the aggregate's `lines`. -/
theorem batched_total_eq_sequential (batches : List (List WorkItem)) :
    (mergeAll (batches.map process_file_batch)).lines =
      (sequentialCount batches.flatten).lines ∧
    ((batches.map process_file_batch).map PartialResult.lines).sum =
      (mergeAll (batches.map process_file_batch)).lines := by
  constructor
  · rw [mergeAll_map_process]
    rfl
  · rw [lines_mergeAll]

theorem mergeResult_right_comm (b p q : PartialResult) :
    mergeResult (mergeResult b p) q = mergeResult (mergeResult b q) p := by
  ext e <;> simp [mergeResult] <;> omega

instance : RightCommutative mergeResult := ⟨mergeResult_right_comm⟩

/-- C7: merging a multiset of `PartialResult`s is order-independent:
any permutation of the arrival order produces the identical aggregate
(total lines, per-extension line counts, per-extension file counts). -/
theorem mergeAll_perm_invariant (ps qs : List PartialResult)
    (h : ps.Perm qs) : mergeAll ps = mergeAll qs :=
  h.foldl_eq zeroPartial

/-- Witness for C7: two concrete `PartialResult`s merged in both
orders. -/
theorem mergeAll_perm_invariant_witness :
    (List.Perm
      [({ lines := 3, extLines := fun e => if e = ".py" then 3 else 0,
          extFiles := fun e => if e = ".py" then 1 else 0 } : PartialResult),
        { lines := 5, extLines := fun e => if e = ".js" then 5 else 0,
          extFiles := fun e => if e = ".js" then 2 else 0 }]
      [({ lines := 5, extLines := fun e => if e = ".js" then 5 else 0,
          extFiles := fun e => if e = ".js" then 2 else 0 } : PartialResult),
        { lines := 3, extLines := fun e => if e = ".py" then 3 else 0,
          extFiles := fun e => if e = ".py" then 1 else 0 }]) ∧
    mergeAll
      [({ lines := 3, extLines := fun e => if e = ".py" then 3 else 0,
          extFiles := fun e => if e = ".py" then 1 else 0 } : PartialResult),
        { lines := 5, extLines := fun e => if e = ".js" then 5 else 0,
          extFiles := fun e => if e = ".js" then 2 else 0 }] =
    mergeAll
      [({ lines := 5, extLines := fun e => if e = ".js" then 5 else 0,
          extFiles := fun e => if e = ".js" then 2 else 0 } : PartialResult),
        { lines := 3, extLines := fun e => if e = ".py" then 3 else 0,
          extFiles := fun e => if e = ".py" then 1 else 0 }] :=
  ⟨List.Perm.swap _ _ _, mergeAll_perm_invariant _ _ (List.Perm.swap _ _ _)⟩

/-- C8: when reading a file fails (permission denied, file vanished,
decode error — any failure, modelled as a `none` read outcome), both
line counters return 0; the embedding is total, so no error
propagates. -/
theorem read_failure_counts_zero :
    count_lines_in_file_result none = 0 ∧
    count_lines_fast_bytes_result none = 0 :=
  ⟨rfl, rfl⟩

/-! ## Batch partitioning

`code_counter.py` lines 159-161:
`batch_size = max(1, len(files) // (max_workers * 4))` and
`[files[i:i + batch_size] for i in range(0, len(files), batch_size)]`.
`code_counter_turbo.py` lines 234-244 use the same slicing with
`batch_size = max(10, n // (w * 2))` for processes and
`max(5, n // (w * 4))` for threads. -/

/-- The batch partitioner of `count_lines_in_directory`. -/
def makeBatches (items : List α) (max_workers : Nat) : List (List α) :=
  let batch_size := max 1 (items.length / (max_workers * 4))
  chunksOf batch_size items

/-- The batch partitioner of `count_lines_turbo` (`use_processes`
selects the process-pool batch size). -/
def makeBatchesTurbo (items : List α) (max_workers : Nat)
    (use_processes : Bool) : List (List α) :=
  let batch_size :=
    if use_processes then max 10 (items.length / (max_workers * 2))
    else max 5 (items.length / (max_workers * 4))
  chunksOf batch_size items

theorem ne_nil_of_mem_chunksOf (bs : Nat) (l : List α) :
    ∀ b ∈ chunksOf bs l, b ≠ [] := by
  induction l using chunksOf.induct bs with
  | case1 => simp [chunksOf]
  | case2 a l ih =>
      intro b hb
      rw [chunksOf] at hb
      rcases List.mem_cons.mp hb with h | h
      · subst h
        simp
      · exact ih b h

/-- C4: for every item list and every worker count at least 1, both
partitioners produce batches of size at least 1 whose concatenation is
exactly the input list — every item in exactly one batch, no
duplicates, no omissions, no gaps, no overlaps. -/
theorem partition_covers (items : List α) (workers : Nat)
    (hw : 1 ≤ workers) :
    ((makeBatches items workers).flatten = items ∧
      ∀ b ∈ makeBatches items workers, 1 ≤ b.length) ∧
    ∀ use_processes : Bool,
      (makeBatchesTurbo items workers use_processes).flatten = items ∧
      ∀ b ∈ makeBatchesTurbo items workers use_processes, 1 ≤ b.length := by
  refine ⟨⟨join_chunksOf _ _, fun b hb => ?_⟩,
    fun up => ⟨join_chunksOf _ _, fun b hb => ?_⟩⟩
  · have := ne_nil_of_mem_chunksOf _ _ b hb
    exact Nat.one_le_iff_ne_zero.mpr (fun h0 =>
      this (List.eq_nil_of_length_eq_zero h0))
  · have := ne_nil_of_mem_chunksOf _ _ b hb
    exact Nat.one_le_iff_ne_zero.mpr (fun h0 =>
      this (List.eq_nil_of_length_eq_zero h0))

/-- Witness for C4 at ten items split for four workers. -/
theorem partition_covers_witness :
    1 ≤ 4 ∧
    (((makeBatches [0, 1, 2, 3, 4, 5, 6, 7, 8, 9] 4).flatten =
        [0, 1, 2, 3, 4, 5, 6, 7, 8, 9] ∧
      ∀ b ∈ makeBatches [0, 1, 2, 3, 4, 5, 6, 7, 8, 9] 4, 1 ≤ b.length) ∧
    ∀ use_processes : Bool,
      (makeBatchesTurbo [0, 1, 2, 3, 4, 5, 6, 7, 8, 9] 4
          use_processes).flatten = [0, 1, 2, 3, 4, 5, 6, 7, 8, 9] ∧
      ∀ b ∈ makeBatchesTurbo [0, 1, 2, 3, 4, 5, 6, 7, 8, 9] 4 use_processes,
        1 ≤ b.length) :=
  ⟨by decide, partition_covers [0, 1, 2, 3, 4, 5, 6, 7, 8, 9] 4 (by decide)⟩

/-! ## File collection

`code_counter.py` lines 52-89 (`should_skip_path`,
`collect_files_to_process` over `root_path.rglob('*')`) and
`code_counter_turbo.py` lines 134-171 (`collect_files_turbo` over
`os.walk` with in-place directory pruning).  Names and path segments
are `List Char`; a directory tree is an `Entry`; a file's `stat`
outcome is `some size` or `none` for a failing `stat()`. -/

/-- A node of the scanned directory tree. -/
inductive Entry where
  | file (name : List Char) (stat : Option Nat)
  | dir (name : List Char) (entries : List Entry)

/-- The extension allow-list of `count_lines_in_directory`
(`code_counter.py` lines 113-118). -/
def extensions : List (List Char) :=
  [".py", ".cs", ".js", ".ts", ".html", ".css", ".java", ".cpp", ".c",
   ".h", ".php", ".rb", ".go", ".rs", ".swift", ".kt", ".scala", ".sh",
   ".ps1", ".sql", ".xml", ".json", ".yaml", ".yml", ".jsx", ".tsx",
   ".vue", ".scss", ".sass", ".less", ".m", ".mm", ".r", ".pl",
   ".lua"].map String.toList

/-- The directory denylist of `count_lines_in_directory`
(`code_counter.py` lines 121-125). -/
def skip_dirs : List (List Char) :=
  [".git", ".vscode", "node_modules", "__pycache__", ".pytest_cache",
   "venv", "env", "bin", "obj", "target", "build", "dist", ".idea",
   ".vs", "coverage", ".nyc_output", "logs"].map String.toList

/-- The extension allow-list of `count_lines_turbo`
(`code_counter_turbo.py` lines 190-196). -/
def extensions_turbo : List (List Char) :=
  [".py", ".cs", ".js", ".ts", ".html", ".css", ".java", ".cpp", ".c",
   ".h", ".hpp", ".cxx", ".cc", ".php", ".rb", ".go", ".rs", ".swift",
   ".kt", ".scala", ".sh", ".ps1", ".sql", ".xml", ".json", ".yaml",
   ".yml", ".jsx", ".tsx", ".vue", ".scss", ".sass", ".less", ".m",
   ".mm", ".r", ".pl", ".lua", ".dart", ".zig", ".nim",
   ".hx"].map String.toList

/-- The directory denylist of `count_lines_turbo`
(`code_counter_turbo.py` lines 199-204). -/
def skip_dirs_turbo : List (List Char) :=
  [".git", ".svn", ".hg", ".vscode", ".idea", ".vs", "node_modules",
   "__pycache__", ".pytest_cache", "venv", "env", ".env", "bin", "obj",
   "target", "build", "dist", "coverage", ".nyc_output", "logs", "tmp",
   ".cache", "vendor", "third_party", "external",
   ".gradle"].map String.toList

/-- `should_skip_path` (`code_counter.py` lines 52-58): true iff any
part of the path is a denylisted name. -/
def should_skip_path (parts sd : List (List Char)) : Bool :=
  parts.any (fun part => sd.contains part)

/-- `pathlib`'s `Path.suffix`: the last dot-segment of the final
component with its dot, and empty when the last dot is the first or
the final character of the name. -/
def pathSuffix (name : List Char) : List Char :=
  let rev := name.reverse
  let before := rev.takeWhile (fun c => c != '.')
  let rest := rev.dropWhile (fun c => c != '.')
  match rest with
  | [] => []
  | _ :: rst =>
      if before.isEmpty then []
      else if rst.isEmpty then []
      else '.' :: before.reverse

/-- `get_file_extension` (`code_counter.py` lines 48-50):
`file_path.suffix.lower()`. -/
def get_file_extension (name : List Char) : List Char :=
  (pathSuffix name).map Char.toLower

mutual

/-- `collect_files_to_process` restricted to the subtree of one
entry discovered by `rglob`: files are kept when their full path has
no denylisted part and their extension is in the allow-list;
directories only contribute their descendants. -/
def collect_entry (pfx : List (List Char)) : Entry →
    List (List (List Char) × List Char)
  | .file name _ =>
      let parts := pfx ++ [name]
      if should_skip_path parts skip_dirs then []
      else
        let extension := get_file_extension name
        if extensions.contains extension then [(parts, extension)] else []
  | .dir name entries => collect_list (pfx ++ [name]) entries

/-- `collect_files_to_process` over a list of sibling entries. -/
def collect_list (pfx : List (List Char)) :
    List Entry → List (List (List Char) × List Char)
  | [] => []
  | e :: es => collect_entry pfx e ++ collect_list pfx es

end

mutual

/-- `collect_files_turbo` on one entry: quick `'.' in filename`
check, last-dot-segment extension lowered, allow-list check, then the
`stat()` size filter (failures and files over 100MB are skipped);
denylisted directories are pruned and never descended into. -/
def collect_turbo_entry (pfx : List (List Char)) : Entry →
    List (List (List Char) × List Char)
  | .file name stat =>
      if name.contains '.' then
        let ext := '.' ::
          ((splitSep (fun c => c == '.') name).getLastD []).map Char.toLower
        if extensions_turbo.contains ext then
          match stat with
          | none => []
          | some size =>
              if size > 100 * 1024 * 1024 then []
              else [(pfx ++ [name], ext)]
        else []
      else []
  | .dir name entries =>
      if skip_dirs_turbo.contains name then []
      else collect_turbo_list (pfx ++ [name]) entries

/-- `collect_files_turbo` over a list of sibling entries. -/
def collect_turbo_list (pfx : List (List Char)) :
    List Entry → List (List (List Char) × List Char)
  | [] => []
  | e :: es => collect_turbo_entry pfx e ++ collect_turbo_list pfx es

end

example : collect_list [String.toList "root"]
    [Entry.dir (String.toList "src") [Entry.file (String.toList "a.PY") (some 5)],
     Entry.dir (String.toList "build") [Entry.file (String.toList "b.py") (some 5)],
     Entry.file (String.toList "README") none] =
  [([String.toList "root", String.toList "src", String.toList "a.PY"],
    String.toList ".py")] := by decide

example : collect_turbo_list [String.toList "root"]
    [Entry.dir (String.toList "src") [Entry.file (String.toList "a.PY") (some 5)],
     Entry.dir (String.toList "build") [Entry.file (String.toList "b.py") (some 5)],
     Entry.file (String.toList "README") none] =
  [([String.toList "root", String.toList "src", String.toList "a.PY"],
    String.toList ".py")] := by decide

example : collect_list [String.toList "home", String.toList "build"]
    [Entry.file (String.toList "a.py") (some 5)] = [] := by decide

example : collect_turbo_list [String.toList "home", String.toList "build"]
    [Entry.file (String.toList "a.py") (some 5)] =
  [([String.toList "home", String.toList "build", String.toList "a.py"],
    String.toList ".py")] := by decide

mutual

theorem collect_entry_sound (pfx : List (List Char)) (e : Entry) :
    ∀ item ∈ collect_entry pfx e,
      (∀ part ∈ item.1, skip_dirs.contains part = false) ∧
        extensions.contains item.2 = true := by
  cases e with
  | file name stat =>
      intro item hitem
      rw [collect_entry] at hitem
      by_cases hskip : should_skip_path (pfx ++ [name]) skip_dirs
      · rw [if_pos hskip] at hitem
        exact absurd hitem (List.not_mem_nil item)
      · rw [if_neg hskip] at hitem
        by_cases hext : extensions.contains (get_file_extension name)
        · rw [if_pos hext] at hitem
          rcases List.mem_singleton.mp hitem with rfl
          refine ⟨fun part hpart => ?_, hext⟩
          rw [should_skip_path] at hskip
          exact Bool.eq_false_iff.mpr
            (List.any_eq_false.mp (Bool.eq_false_iff.mpr hskip) part hpart)
        · rw [if_neg hext] at hitem
          exact absurd hitem (List.not_mem_nil item)
  | dir name entries =>
      intro item hitem
      rw [collect_entry] at hitem
      exact collect_list_sound (pfx ++ [name]) entries item hitem

theorem collect_list_sound (pfx : List (List Char)) (es : List Entry) :
    ∀ item ∈ collect_list pfx es,
      (∀ part ∈ item.1, skip_dirs.contains part = false) ∧
        extensions.contains item.2 = true := by
  cases es with
  | nil =>
      intro item hitem
      rw [collect_list] at hitem
      exact absurd hitem (List.not_mem_nil item)
  | cons e es =>
      intro item hitem
      rw [collect_list] at hitem
      rcases List.mem_append.mp hitem with h | h
      · exact collect_entry_sound pfx e item h
      · exact collect_list_sound pfx es item h

end

mutual

theorem collect_turbo_entry_sound (pfx : List (List Char)) (e : Entry) :
    ∀ item ∈ collect_turbo_entry pfx e,
      ∃ rel, item.1 = pfx ++ rel ∧ rel ≠ [] ∧
        (∀ seg ∈ rel.dropLast, skip_dirs_turbo.contains seg = false) ∧
        extensions_turbo.contains item.2 = true := by
  cases e with
  | file name stat =>
      intro item hitem
      rw [collect_turbo_entry] at hitem
      by_cases hdot : name.contains '.'
      · rw [if_pos hdot] at hitem
        by_cases hext : extensions_turbo.contains ('\x2e' ::
            ((splitSep (fun c => c == '.') name).getLastD []).map Char.toLower)
        · rw [if_pos hext] at hitem
          cases stat with
          | none => exact absurd hitem (List.not_mem_nil item)
          | some size =>
              by_cases hsize : size > 100 * 1024 * 1024
              · simp [hsize] at hitem
              · simp only [hsize, if_false, ite_false, if_neg,
                  not_false_iff] at hitem
                rcases List.mem_singleton.mp hitem with rfl
                exact ⟨[name], rfl, by simp, by simp, hext⟩
        · rw [if_neg hext] at hitem
          exact absurd hitem (List.not_mem_nil item)
      · rw [if_neg hdot] at hitem
        exact absurd hitem (List.not_mem_nil item)
  | dir name entries =>
      intro item hitem
      rw [collect_turbo_entry] at hitem
      by_cases hname : skip_dirs_turbo.contains name
      · rw [if_pos hname] at hitem
        exact absurd hitem (List.not_mem_nil item)
      · rw [if_neg hname] at hitem
        obtain ⟨rel, hrel, hne, hsegs, hext⟩ :=
          collect_turbo_list_sound (pfx ++ [name]) entries item hitem
        refine ⟨name :: rel, by simpa using hrel, by simp, ?_, hext⟩
        intro seg hseg
        rw [List.dropLast_cons_of_ne_nil hne] at hseg
        rcases List.mem_cons.mp hseg with h | h
        · subst h
          exact (Bool.not_eq_true _).mp hname
        · exact hsegs seg h

theorem collect_turbo_list_sound (pfx : List (List Char)) (es : List Entry) :
    ∀ item ∈ collect_turbo_list pfx es,
      ∃ rel, item.1 = pfx ++ rel ∧ rel ≠ [] ∧
        (∀ seg ∈ rel.dropLast, skip_dirs_turbo.contains seg = false) ∧
        extensions_turbo.contains item.2 = true := by
  cases es with
  | nil =>
      intro item hitem
      rw [collect_turbo_list] at hitem
      exact absurd hitem (List.not_mem_nil item)
  | cons e es =>
      intro item hitem
      rw [collect_turbo_list] at hitem
      rcases List.mem_append.mp hitem with h | h
      · exact collect_turbo_entry_sound pfx e item h
      · exact collect_turbo_list_sound pfx es item h

end

/-- C5: every collected work item passed the two filters.  For the
`rglob`-based collector no part of the item's full path (the scan
prefix, every directory, the filename) is denylisted, and its
extension is in the allow-list; for the pruning `os.walk` collector no
directory segment below the scan root is denylisted, and its
extension is in the turbo allow-list.  Contrapositively, every file
under a denylisted directory and every file with an out-of-list
extension is excluded. -/
theorem collect_excludes (pfx : List (List Char)) (es : List Entry)
    (item : List (List Char) × List Char) :
    (item ∈ collect_list pfx es →
      (∀ part ∈ item.1, skip_dirs.contains part = false) ∧
        extensions.contains item.2 = true) ∧
    (item ∈ collect_turbo_list pfx es →
      ∃ rel, item.1 = pfx ++ rel ∧ rel ≠ [] ∧
        (∀ seg ∈ rel.dropLast, skip_dirs_turbo.contains seg = false) ∧
        extensions_turbo.contains item.2 = true) :=
  ⟨fun h => collect_list_sound pfx es item h,
   fun h => collect_turbo_list_sound pfx es item h⟩

/-- Witness for C5 on a small concrete tree: the single collected item
of each collector satisfies the exclusion properties. -/
theorem collect_excludes_witness :
    (([([String.toList "root", String.toList "src",
          String.toList "a.py"], String.toList ".py")] :
        List (List (List Char) × List Char)) =
      collect_list [String.toList "root"]
        [Entry.dir (String.toList "src")
          [Entry.file (String.toList "a.py") (some 5)]]) ∧
    ((∀ part ∈ [String.toList "root", String.toList "src",
        String.toList "a.py"], skip_dirs.contains part = false) ∧
      extensions.contains (String.toList ".py") = true) ∧
    (∃ rel, ([String.toList "root", String.toList "src",
        String.toList "a.py"] : List (List Char)) =
          [String.toList "root"] ++ rel ∧ rel ≠ [] ∧
        (∀ seg ∈ rel.dropLast, skip_dirs_turbo.contains seg = false) ∧
        extensions_turbo.contains (String.toList ".py") = true) :=
  ⟨by decide,
   (collect_excludes [String.toList "root"]
      [Entry.dir (String.toList "src")
        [Entry.file (String.toList "a.py") (some 5)]]
      ([String.toList "root", String.toList "src", String.toList "a.py"],
        String.toList ".py")).1 (by decide),
   (collect_excludes [String.toList "root"]
      [Entry.dir (String.toList "src")
        [Entry.file (String.toList "a.py") (some 5)]]
      ([String.toList "root", String.toList "src", String.toList "a.py"],
        String.toList ".py")).2 (by decide)⟩

mutual

theorem collect_entry_skip_root (pfx : List (List Char)) (e : Entry)
    (h : ∃ seg ∈ pfx, skip_dirs.contains seg = true) :
    collect_entry pfx e = [] := by
  cases e with
  | file name stat =>
      obtain ⟨seg, hm, hc⟩ := h
      have hskip : should_skip_path (pfx ++ [name]) skip_dirs = true := by
        rw [should_skip_path]
        exact List.any_eq_true.mpr ⟨seg, List.mem_append_left _ hm, hc⟩
      rw [collect_entry, if_pos hskip]
  | dir name entries =>
      rw [collect_entry]
      exact collect_list_skip_root (pfx ++ [name]) entries
        (by obtain ⟨seg, hm, hc⟩ := h
            exact ⟨seg, List.mem_append_left _ hm, hc⟩)

theorem collect_list_skip_root (pfx : List (List Char)) (es : List Entry)
    (h : ∃ seg ∈ pfx, skip_dirs.contains seg = true) :
    collect_list pfx es = [] := by
  cases es with
  | nil => rw [collect_list]
  | cons e es =>
      rw [collect_list, collect_entry_skip_root pfx e h,
          collect_list_skip_root pfx es h]
      rfl

end

/-- C9: in the threaded variant the denylist is checked against every
component of the file's resolved path, ancestors of the scan root
included: when the root's own path contains a denylisted segment,
nothing is collected and every total of the downstream pipeline
(batched with any worker count, processed, merged, for any read
outcomes) is zero. -/
theorem denylisted_root_collects_nothing (rootSegs : List (List Char))
    (es : List Entry)
    (h : ∃ seg ∈ rootSegs, skip_dirs.contains seg = true) :
    collect_list rootSegs es = [] ∧
    ∀ (read : List (List Char) → Option (List Char)) (workers : Nat),
      mergeAll ((makeBatches ((collect_list rootSegs es).map
          (fun it => WorkItem.mk (read it.1) (String.mk it.2))) workers).map
        process_file_batch) = zeroPartial := by
  have h0 : collect_list rootSegs es = [] := collect_list_skip_root rootSegs es h
  refine ⟨h0, fun read workers => ?_⟩
  rw [h0]
  show mergeAll ((makeBatches [] workers).map process_file_batch) = zeroPartial
  rw [makeBatches]
  show mergeAll ((chunksOf _ []).map process_file_batch) = zeroPartial
  rw [show chunksOf (max 1 (([] : List WorkItem).length / (workers * 4))) [] =
        ([] : List (List WorkItem)) from by rw [chunksOf]]
  rfl

/-- Witness for C9: a root whose second segment is `build`. -/
theorem denylisted_root_collects_nothing_witness :
    (∃ seg ∈ [String.toList "home", String.toList "build"],
      skip_dirs.contains seg = true) ∧
    (collect_list [String.toList "home", String.toList "build"]
        [Entry.file (String.toList "a.py") (some 5)] = [] ∧
    ∀ (read : List (List Char) → Option (List Char)) (workers : Nat),
      mergeAll ((makeBatches ((collect_list
          [String.toList "home", String.toList "build"]
          [Entry.file (String.toList "a.py") (some 5)]).map
          (fun it => WorkItem.mk (read it.1) (String.mk it.2))) workers).map
        process_file_batch) = zeroPartial) :=
  ⟨by decide,
   denylisted_root_collects_nothing
     [String.toList "home", String.toList "build"]
     [Entry.file (String.toList "a.py") (some 5)] (by decide)⟩

/-! ## Program termination and exit codes

`code_counter.py` lines 130-136: an invalid root makes
`count_lines_in_directory` print an error message and return a tuple
of `None`s.  Lines 277-281: `main()` checks `total_lines is not None`
before displaying and returns normally either way.  Lines 284-292: the
`__main__` wrapper exits with `sys.exit(1)` on `KeyboardInterrupt`,
`sys.exit(1)` on any other exception, and with the interpreter's
default code 0 when `main()` returns. -/

/-- The status of the root path argument. -/
inductive PathStatus where
  | missing
  | notDirectory
  | directory (entries : List Entry)

/-- The result tuple of `count_lines_in_directory` reduced to the
collected work items: `none` is the `(None, None, None, None, None)`
return on an invalid path. -/
def count_lines_in_directory_items (rootSegs : List (List Char)) :
    PathStatus → Option (List (List (List Char) × List Char))
  | .missing => none
  | .notDirectory => none
  | .directory es => some (collect_list rootSegs es)

/-- How a run ends: `main()` returns normally (the invalid-path and
no-files cases print messages and still return normally), or the
wrapper catches a `KeyboardInterrupt`, or it catches any other
exception. -/
inductive Termination where
  | normal (ps : PathStatus)
  | keyboardInterrupt
  | unhandledError

/-- The process exit code of the `__main__` block of
`code_counter.py`. -/
def sys_exit_code : Termination → Nat
  | .normal _ => 0
  | .keyboardInterrupt => 1
  | .unhandledError => 1

/-- C6 counterexample: a run whose path does not exist completes
`main()` normally and exits with code 0, not the non-zero code the
claim requires; and the cancellation exit code equals the generic
error exit code, so it is not distinct. -/
theorem exit_code_counterexample :
    sys_exit_code (.normal .missing) = 0 ∧
    sys_exit_code .keyboardInterrupt = sys_exit_code .unhandledError := by
  decide

/-- C6 (amended): the exit code is 0 whenever `main()` returns -
on success, when no files are found, and also when the path is
missing or not a directory (exactly the runs in which
`count_lines_in_directory` returns the `None` tuple after printing an
error message); the exit code is 1 on user cancellation and 1 on any
unhandled error, the same value for both. -/
theorem exit_code_behavior (rootSegs : List (List Char)) (ps : PathStatus) :
    (sys_exit_code (.normal ps) = 0 ∧
     sys_exit_code .keyboardInterrupt = 1 ∧
     sys_exit_code .unhandledError = 1) ∧
    (count_lines_in_directory_items rootSegs ps = none ↔
      (ps = .missing ∨ ps = .notDirectory)) := by
  refine ⟨⟨rfl, rfl, rfl⟩, ?_⟩
  cases ps with
  | missing => simp [count_lines_in_directory_items]
  | notDirectory => simp [count_lines_in_directory_items]
  | directory es => simp [count_lines_in_directory_items]

end CodeCounter
